import Mathlib

/-!
Verification of the GoMun agenda client and API (Je0azul5/GoMun).

The development shallowly embeds the grouping / sorting / filtering /
pagination engine of `apps/web/src/App.tsx` and the CRUD validation logic of
`apps/api/src/index.ts`.  JavaScript strings are modelled by Lean `String`
(a list of characters); the JavaScript string intrinsics used by the code
(`trim`, `toLowerCase`, `toUpperCase`, `charAt(0)`, `includes`,
`Array.prototype.join(' ')`) are modelled by executable functions on the
character list.  `localeCompare(_, undefined, { sensitivity: 'base' })` is
modelled as case-insensitive code-point lexicographic comparison, and
`Array.prototype.sort` (stable per the ECMAScript specification) as a stable
insertion sort.  `Date` parsing and `toLocaleDateString` are platform
intrinsics and are modelled by an explicit environment (`DateEnv`).
-/

/-- Model of JavaScript `String.prototype.trim`: drop whitespace from both
ends of the character list. -/
def jsTrim (s : String) : String :=
  ⟨((s.data.dropWhile Char.isWhitespace).reverse.dropWhile Char.isWhitespace).reverse⟩

/-- Model of JavaScript `String.prototype.toLowerCase` (character-wise case
mapping). -/
def jsToLower (s : String) : String :=
  ⟨s.data.map Char.toLower⟩

/-- Model of JavaScript `String.prototype.toUpperCase` (character-wise case
mapping). -/
def jsToUpper (s : String) : String :=
  ⟨s.data.map Char.toUpper⟩

/-- Model of JavaScript `String.prototype.charAt(0)`: the one-character
string holding the first character, or the empty string. -/
def jsCharAt0 (s : String) : String :=
  match s.data with
  | [] => ""
  | c :: _ => ⟨[c]⟩

/-- Does `hay` start with `needle`?  (Helper for `hasSubstr`.) -/
def leadsWith : List Char → List Char → Bool
  | [], _ => true
  | _ :: _, [] => false
  | a :: as, b :: bs => a == b && leadsWith as bs

/-- Does `needle` occur contiguously inside `hay`?  Model of JavaScript
`String.prototype.includes`. -/
def hasSubstr (needle : List Char) : List Char → Bool
  | [] => leadsWith needle []
  | c :: t => leadsWith needle (c :: t) || hasSubstr needle t

/-- `jsIncludes hay needle` models JavaScript `hay.includes(needle)`. -/
def jsIncludes (hay needle : String) : Bool :=
  hasSubstr needle.data hay.data

/-- Model of JavaScript `Array.prototype.join(' ')` on a list of strings. -/
def joinSpace : List String → String
  | [] => ""
  | [s] => s
  | s :: rest => s ++ " " ++ joinSpace rest

/-- Case-sensitive code-point lexicographic `≤` on character lists.  Applied
to case-folded strings below, this models
`localeCompare(_, undefined, \x7b sensitivity: 'base' \x7d)` returning a
non-positive number. -/
def lexLe : List Char → List Char → Bool
  | [], _ => true
  | _ :: _, [] => false
  | a :: as, b :: bs => if a < b then true else if b < a then false else lexLe as bs

/-- `src/apps/web/src/App.tsx` line 26: `const isLatinLetter = (char) =>
/^[A-Z]$/.test(char)`. -/
def isLatinLetter (s : String) : Bool :=
  match s.data with
  | [c] => decide ('A' ≤ c) && decide (c ≤ 'Z')
  | _ => false

/-- `src/apps/web/src/App.tsx` lines 28-31: derive a section letter from a
title.  `title?.trim().charAt(0).toUpperCase() ?? ''` followed by the
Latin-range test, with `'#'` as the catch-all key. -/
def letterKey (title : Option String) : String :=
  let initial : String :=
    match title with
    | none => ""
    | some t => jsToUpper (jsCharAt0 (jsTrim t))
  if isLatinLetter initial then initial else "#"

/-- Environment for the platform date intrinsics used by `formatDate`:
`parse s` models `new Date(s).getTime()`, with `none` for `NaN`
(an unparseable value), and `fmt` models `toLocaleDateString` on a valid
timestamp. -/
structure DateEnv where
  parse : String → Option Int
  fmt : Int → String

/-- `src/apps/web/src/App.tsx` lines 33-42: `formatDate` returns `''` for an
absent value (`!value`, which also catches the empty string), `''` when the
parsed time is `NaN`, and the locale rendering otherwise. -/
def formatDate (env : DateEnv) (value : Option String) : String :=
  match value with
  | none => ""
  | some s =>
    if s = "" then ""
    else
      match env.parse s with
      | none => ""
      | some t => env.fmt t

/-- `src/apps/web/src/App.tsx` lines 5-13: the `AgendaEntry` record shape. -/
structure AgendaEntry where
  id : String
  title : String
  note : Option String
  date : Option String
  done : Bool
  createdAt : String
  userId : String
deriving DecidableEq

/-- `src/apps/web/src/App.tsx` lines 15-20: the `AgendaSection` record
shape. -/
structure AgendaSection where
  letter : String
  visible : List AgendaEntry
  totalPages : Nat
  currentPage : Nat
deriving DecidableEq

/-- `src/apps/web/src/App.tsx` line 23: `const ITEMS_PER_PAGE = 5`. -/
def ITEMS_PER_PAGE : Nat := 5

/-- Insert `x` after every element `y` of an already sorted list with
`le y x`; the building block of the stable sort. -/
def insertAfter (le : α → α → Bool) (x : α) : List α → List α
  | [] => [x]
  | y :: ys => if le y x then y :: insertAfter le x ys else x :: y :: ys

/-- Stable insertion sort; model of `Array.prototype.sort(cmp)`, which the
ECMAScript specification requires to be stable. -/
def stableSort (le : α → α → Bool) (l : List α) : List α :=
  l.foldl (fun acc x => insertAfter le x acc) []

/-- The letter key of an entry, `letterKey(entry.title)`. -/
def keyOf (e : AgendaEntry) : String :=
  letterKey (some e.title)

/-- The bucket for key `k` built by the grouping loop (`App.tsx` lines
145-150 and 561-567): entries pushed in input order, i.e. the sublist of
entries whose key is `k`. -/
def groupOf (entries : List AgendaEntry) (k : String) : List AgendaEntry :=
  entries.filter (fun e => keyOf e == k)

/-- The distinct letter keys in first-occurrence order — the key order of
the JavaScript `Map` filled by the grouping loop. -/
def bucketKeys (entries : List AgendaEntry) : List String :=
  entries.foldl (fun acc e => if keyOf e ∈ acc then acc else acc ++ [keyOf e]) []

/-- Key comparison used by `.sort(([a], [b]) => a.localeCompare(b, undefined,
\x7b sensitivity: 'base' \x7d))`: case-insensitive lexicographic order. -/
def keyLeB (a b : String) : Bool :=
  lexLe (jsToLower a).data (jsToLower b).data

/-- Title comparison used by the within-section sort (`App.tsx` lines
155-157 and 572-574). -/
def titleLeB (a b : AgendaEntry) : Bool :=
  lexLe (jsToLower a.title).data (jsToLower b.title).data

/-- Section keys sorted with the locale-aware case-insensitive comparator
(`App.tsx` line 153 and line 570). -/
def sortKeys (ks : List String) : List String :=
  stableSort keyLeB ks

/-- The fully sorted entry list of the section for key `k`
(`orderedItems` in `App.tsx` lines 155-157, `visible` in lines 572-574). -/
def sectionGroup (entries : List AgendaEntry) (k : String) : List AgendaEntry :=
  stableSort titleLeB (groupOf entries k)

/-- `src/apps/web/src/App.tsx` lines 142-172: `groupedSections`.  Groups the
entries by letter key, sorts the keys and each group with the case-insensitive
comparator, computes `totalPages = max(1, ceil(count / 5))`, clamps the stored
page into `[1, totalPages]`, and slices out the visible page. -/
def groupedSections (entries : List AgendaEntry) (pages : String → Option Nat) :
    List AgendaSection :=
  (sortKeys (bucketKeys entries)).map fun letter =>
    let orderedItems := sectionGroup entries letter
    let totalPages := max 1 ((orderedItems.length + (ITEMS_PER_PAGE - 1)) / ITEMS_PER_PAGE)
    let currentPage := min (max ((pages letter).getD 1) 1) totalPages
    let startIndex := (currentPage - 1) * ITEMS_PER_PAGE
    { letter := letter
      visible := (orderedItems.drop startIndex).take ITEMS_PER_PAGE
      totalPages := totalPages
      currentPage := currentPage }

/-- `src/apps/web/src/App.tsx` lines 95-139: the reconciliation effect.  For
each key with at least one entry the stored page (default 1) is clamped into
`[1, max 1 (ceil(count / 5))]`; keys with no entries are dropped. -/
def reconcilePages (entries : List AgendaEntry) (prev : String → Option Nat) :
    String → Option Nat :=
  fun k =>
    let count := (groupOf entries k).length
    if count = 0 then none
    else some (min (max ((prev k).getD 1) 1) (max 1 ((count + (ITEMS_PER_PAGE - 1)) / ITEMS_PER_PAGE)))

/-- `src/apps/web/src/App.tsx` lines 291-293: `handlePageChange` stores the
requested page under the given letter, leaving other letters alone. -/
def handlePageChange (prev : String → Option Nat) (letter : String) (page : Nat) :
    String → Option Nat :=
  fun k => if k = letter then some page else prev k

/-- The client state touched by `handleSubmitEntry`: the entry list and the
per-letter page map. -/
structure ClientState where
  entries : List AgendaEntry
  pageByLetter : String → Option Nat

/-- `src/apps/web/src/App.tsx` lines 243-249: after a successful create the
saved entry is prepended and the destination letter's page is reset to 1. -/
def clientAfterCreate (st : ClientState) (saved : AgendaEntry) : ClientState :=
  { entries := saved :: st.entries
    pageByLetter := fun k => if k = keyOf saved then some 1 else st.pageByLetter k }

/-- `src/apps/web/src/App.tsx` lines 238-245 (edit path): on a successful
update the saved entry replaces the entry with the same id; a failed request
(`!response.ok`, modelled by `none`) throws before `setEntries`, leaving the
list unchanged. -/
def clientAfterEditResponse (entries : List AgendaEntry) (resp : Option AgendaEntry) :
    List AgendaEntry :=
  match resp with
  | some saved => entries.map (fun e => if e.id == saved.id then saved else e)
  | none => entries

/-- `src/apps/web/src/App.tsx` lines 539-558 (`SearchView`): the search
haystack of an entry — title, note (or `''`), user tag (or `''`), formatted
date and formatted creation timestamp, space-joined and lowercased. -/
def entryHaystack (env : DateEnv) (e : AgendaEntry) : String :=
  jsToLower (joinSpace
    [e.title, e.note.getD "", e.userId, formatDate env e.date, formatDate env (some e.createdAt)])

/-- `src/apps/web/src/App.tsx` lines 537-558: normalize the query (trim,
lowercase); an empty normalized query keeps every entry, otherwise keep the
entries whose haystack contains the query. -/
def searchFiltered (env : DateEnv) (entries : List AgendaEntry) (query : String) :
    List AgendaEntry :=
  let normalizedQuery := jsToLower (jsTrim query)
  if normalizedQuery = "" then entries
  else entries.filter (fun e => jsIncludes (entryHaystack env e) normalizedQuery)

/-- `src/apps/web/src/App.tsx` lines 560-580: search-mode sections — same
grouping and ordering as `groupedSections` applied to the filtered entries,
with every matching entry on one synthetic page. -/
def searchSections (env : DateEnv) (entries : List AgendaEntry) (query : String) :
    List AgendaSection :=
  let filtered := searchFiltered env entries query
  (sortKeys (bucketKeys filtered)).map fun letter =>
    { letter := letter
      visible := sectionGroup filtered letter
      totalPages := 1
      currentPage := 1 }

/-- Shape of one optional JSON body field as discriminated by the API's
`typeof` checks: absent, present but not a string, or a string. -/
inductive JsField where
  | absent
  | nonString
  | str (s : String)
deriving DecidableEq

/-- Request body of `POST /api/entries` (`src/apps/api/src/index.ts` line
18).  The `date` field is only tested for truthiness, so it is modelled as an
optional string (with `some ""` falsy like `''`). -/
structure CreateBody where
  title : JsField
  note : JsField
  date : Option String
  userId : JsField
deriving DecidableEq

/-- Request body of `PUT /api/entries/:id` (`src/apps/api/src/index.ts` line
41). -/
structure UpdateBody where
  title : JsField
  note : JsField
deriving DecidableEq

/-- The persisted entry row (`prisma.entry`).  The `date` column keeps the
raw request value; its `Date` conversion is irrelevant to every claim. -/
structure StoredEntry where
  id : String
  userId : String
  title : String
  note : Option String
  date : Option String
  done : Bool
  createdAt : String
deriving DecidableEq

/-- The optional `note` resolution shared by create and update:
`typeof note === 'string' && note.trim() ? note.trim() : null`. -/
def resolveNote (note : JsField) : Option String :=
  match note with
  | JsField.str s => if jsTrim s = "" then none else some (jsTrim s)
  | _ => none

/-- `src/apps/api/src/index.ts` lines 17-38: `POST /api/entries`.  Rejects a
missing, non-string or blank title with a 400 validation error; otherwise
stores and returns the entry with the server-assigned id and creation
timestamp, the trimmed title, the resolved note, the raw date (`null` when
falsy) and the resolved user tag (trimmed when a non-blank string was
supplied, else the configured default). -/
def createEntry (defaultUserId freshId now : String) (body : CreateBody)
    (store : List StoredEntry) : Except String StoredEntry × List StoredEntry :=
  match body.title with
  | JsField.str t =>
    if jsTrim t = "" then (Except.error "Title is required.", store)
    else
      let resolvedUserId :=
        match body.userId with
        | JsField.str u => if jsTrim u = "" then defaultUserId else jsTrim u
        | _ => defaultUserId
      let created : StoredEntry :=
        { id := freshId
          userId := resolvedUserId
          title := jsTrim t
          note := resolveNote body.note
          date := match body.date with
                  | none => none
                  | some s => if s = "" then none else some s
          done := false
          createdAt := now }
      (Except.ok created, store ++ [created])
  | _ => (Except.error "Title is required.", store)

/-- Outcome of `PUT /api/entries/:id`: 400 validation failure, 404 not-found
(Prisma error code P2025), or the updated entry. -/
inductive UpdateResult where
  | badRequest
  | notFound
  | ok (e : StoredEntry)
deriving DecidableEq

/-- `src/apps/api/src/index.ts` lines 40-72: `PUT /api/entries/:id`.  Checks
the id and the title (400), then updates the matching row, changing only
`title` and `note`; Prisma raises P2025 when no row has the id, mapped to a
404. -/
def updateEntry (id : String) (body : UpdateBody) (store : List StoredEntry) :
    UpdateResult × List StoredEntry :=
  if id = "" then (UpdateResult.badRequest, store)
  else
    match body.title with
    | JsField.str t =>
      if jsTrim t = "" then (UpdateResult.badRequest, store)
      else
        if store.all (fun e => e.id ≠ id) then (UpdateResult.notFound, store)
        else
          let upd : StoredEntry → StoredEntry := fun e =>
            if e.id = id then { e with title := jsTrim t, note := resolveNote body.note } else e
          match (store.map upd).find? (fun e => e.id == id) with
          | some e => (UpdateResult.ok e, store.map upd)
          | none => (UpdateResult.notFound, store.map upd)
    | _ => (UpdateResult.badRequest, store)

/-- A demonstration entry filed under letter `A`. -/
def entryA : AgendaEntry :=
  { id := "", title := "Alpha", note := none, date := none, done := false
    createdAt := "", userId := "couple" }

/-- A demonstration entry whose note, not title, mentions London. -/
def eLondon : AgendaEntry :=
  { id := "1", title := "Trip", note := some "Dinner in London", date := none
    done := false, createdAt := "", userId := "alice" }

/-- A date environment in which no value parses. -/
def noDates : DateEnv := { parse := fun _ => none, fmt := fun _ => "" }

/-- A date environment in which every value parses to time 0 and formats to a
fixed non-empty rendering. -/
def demoDates : DateEnv := { parse := fun _ => some 0, fmt := fun _ => "Jan 1, 2024" }

/-- Two demonstration entries sharing the title `Alpha` but with distinct
ids, for exercising sort stability. -/
def eAlphaX : AgendaEntry := { entryA with id := "x" }

/-- Second entry with an equal title (see `eAlphaX`). -/
def eAlphaY : AgendaEntry := { entryA with id := "y" }

/-- The create request of the end-to-end scenario in the specification:
title `Visit Paris`, blank note, no date, no explicit user tag. -/
def parisBody : CreateBody :=
  { title := JsField.str "Visit Paris", note := JsField.str "", date := none
    userId := JsField.absent }

/-- A create request whose title is blank after trimming. -/
def blankBody : CreateBody :=
  { title := JsField.str "   ", note := JsField.absent, date := none
    userId := JsField.absent }

/-- A demonstration stored entry with id `1`. -/
def sEntry1 : StoredEntry :=
  { id := "1", userId := "couple", title := "Old title", note := some "old note"
    date := some "2023-05-01", done := false, createdAt := "2023-01-01" }

theorem insertAfter_perm (le : α → α → Bool) (x : α) (l : List α) :
    (insertAfter le x l).Perm (x :: l) := by
  induction l with
  | nil => simp [insertAfter]
  | cons y ys ih =>
    simp only [insertAfter]
    by_cases h : le y x = true
    · simp only [h, if_true]
      exact ((ih.cons y).trans (List.Perm.swap x y ys))
    · simp [h]

theorem mem_insertAfter (le : α → α → Bool) (x a : α) (l : List α) :
    a ∈ insertAfter le x l ↔ a = x ∨ a ∈ l := by
  rw [(insertAfter_perm le x l).mem_iff]
  simp

theorem foldl_insertAfter_perm (le : α → α → Bool) :
    ∀ (l acc : List α), (l.foldl (fun acc x => insertAfter le x acc) acc).Perm (acc ++ l) := by
  intro l
  induction l with
  | nil => intro acc; simp
  | cons x t ih =>
    intro acc
    simp only [List.foldl_cons]
    exact (ih (insertAfter le x acc)).trans
      (((insertAfter_perm le x acc).append_right t).trans List.perm_middle.symm)

theorem stableSort_perm (le : α → α → Bool) (l : List α) :
    (stableSort le l).Perm l := by
  simpa [stableSort] using foldl_insertAfter_perm le l []

theorem mem_stableSort (le : α → α → Bool) (a : α) (l : List α) :
    a ∈ stableSort le l ↔ a ∈ l :=
  (stableSort_perm le l).mem_iff

theorem insertAfter_pairwise (le : α → α → Bool)
    (htrans : ∀ a b c, le a b = true → le b c = true → le a c = true)
    (htotal : ∀ a b, le a b = true ∨ le b a = true)
    (x : α) (l : List α) (hl : l.Pairwise (fun a b => le a b = true)) :
    (insertAfter le x l).Pairwise (fun a b => le a b = true) := by
  induction l with
  | nil => simp [insertAfter]
  | cons y ys ih =>
    rcases List.pairwise_cons.mp hl with ⟨hy, hys⟩
    simp only [insertAfter]
    by_cases h : le y x = true
    · simp only [h, if_true]
      refine List.pairwise_cons.mpr ⟨?_, ih hys⟩
      intro z hz
      rcases (mem_insertAfter le x z ys).mp hz with rfl | hz'
      · exact h
      · exact hy z hz'
    · simp only [h, if_false]
      have hxy : le x y = true := (htotal x y).resolve_right h
      refine List.pairwise_cons.mpr ⟨?_, hl⟩
      intro z hz
      rcases List.mem_cons.mp hz with rfl | hz'
      · exact hxy
      · exact htrans x y z hxy (hy z hz')

theorem foldl_insertAfter_pairwise (le : α → α → Bool)
    (htrans : ∀ a b c, le a b = true → le b c = true → le a c = true)
    (htotal : ∀ a b, le a b = true ∨ le b a = true) :
    ∀ (l acc : List α), acc.Pairwise (fun a b => le a b = true) →
      (l.foldl (fun acc x => insertAfter le x acc) acc).Pairwise (fun a b => le a b = true) := by
  intro l
  induction l with
  | nil => intro acc h; simpa using h
  | cons x t ih =>
    intro acc h
    simp only [List.foldl_cons]
    exact ih _ (insertAfter_pairwise le htrans htotal x acc h)

theorem stableSort_pairwise (le : α → α → Bool)
    (htrans : ∀ a b c, le a b = true → le b c = true → le a c = true)
    (htotal : ∀ a b, le a b = true ∨ le b a = true) (l : List α) :
    (stableSort le l).Pairwise (fun a b => le a b = true) :=
  foldl_insertAfter_pairwise le htrans htotal l [] List.Pairwise.nil

theorem filter_insertAfter (le : α → α → Bool) (p : α → Bool)
    (htrans : ∀ a b c, le a b = true → le b c = true → le a c = true)
    (_htotal : ∀ a b, le a b = true ∨ le b a = true)
    (hmut : ∀ u v, p u = true → p v = true → le u v = true)
    (x : α) (l : List α) (hl : l.Pairwise (fun a b => le a b = true)) :
    (insertAfter le x l).filter p =
      if p x then l.filter p ++ [x] else l.filter p := by
  induction l with
  | nil =>
    by_cases hx : p x = true <;> simp [insertAfter, List.filter, hx]
  | cons y ys ih =>
    rcases List.pairwise_cons.mp hl with ⟨hy, hys⟩
    simp only [insertAfter]
    by_cases h : le y x = true
    · simp only [h, if_true]
      by_cases hpy : p y = true
      · rw [List.filter_cons_of_pos hpy, List.filter_cons_of_pos hpy, ih hys]
        by_cases hx : p x = true <;> simp [hx]
      · rw [List.filter_cons_of_neg hpy, List.filter_cons_of_neg hpy, ih hys]
    · rw [if_neg h]
      by_cases hx : p x = true
      · have hnil : (y :: ys).filter p = [] := by
          rw [List.filter_eq_nil_iff]
          intro z hz hpz
          have hzx : le z x = true := hmut z x hpz hx
          have hyx : le y x = true := by
            rcases List.mem_cons.mp hz with rfl | hz'
            · exact hzx
            · exact htrans y z x (hy z hz') hzx
          exact h hyx
        rw [List.filter_cons_of_pos hx, hnil, if_pos hx]
        simp
      · rw [List.filter_cons_of_neg hx, if_neg hx]

theorem foldl_insertAfter_filter (le : α → α → Bool) (p : α → Bool)
    (htrans : ∀ a b c, le a b = true → le b c = true → le a c = true)
    (htotal : ∀ a b, le a b = true ∨ le b a = true)
    (hmut : ∀ u v, p u = true → p v = true → le u v = true) :
    ∀ (l acc : List α), acc.Pairwise (fun a b => le a b = true) →
      (l.foldl (fun acc x => insertAfter le x acc) acc).filter p =
        acc.filter p ++ l.filter p := by
  intro l
  induction l with
  | nil => intro acc _; simp
  | cons x t ih =>
    intro acc hacc
    simp only [List.foldl_cons]
    rw [ih _ (insertAfter_pairwise le htrans htotal x acc hacc),
      filter_insertAfter le p htrans htotal hmut x acc hacc]
    by_cases hx : p x = true
    · rw [if_pos hx, List.filter_cons_of_pos hx, List.append_assoc]
      rfl
    · rw [if_neg hx, List.filter_cons_of_neg hx]

theorem stableSort_filter (le : α → α → Bool) (p : α → Bool)
    (htrans : ∀ a b c, le a b = true → le b c = true → le a c = true)
    (htotal : ∀ a b, le a b = true ∨ le b a = true)
    (hmut : ∀ u v, p u = true → p v = true → le u v = true) (l : List α) :
    (stableSort le l).filter p = l.filter p := by
  simpa [stableSort] using
    foldl_insertAfter_filter le p htrans htotal hmut l [] List.Pairwise.nil

theorem stableSort_stable_pair (le : α → α → Bool)
    (htrans : ∀ a b c, le a b = true → le b c = true → le a c = true)
    (htotal : ∀ a b, le a b = true ∨ le b a = true)
    {a b : α} {l : List α} (hab : [a, b].Sublist l)
    (h1 : le a b = true) (h2 : le b a = true) :
    [a, b].Sublist (stableSort le l) := by
  set p : α → Bool := fun z => le a z && le z a with hp
  have hpa : p a = true := by
    rcases htotal a a with h | h <;> simp [hp, h]
  have hpb : p b = true := by simp [hp, h1, h2]
  have hmut : ∀ u v, p u = true → p v = true → le u v = true := by
    intro u v hu hv
    simp only [hp, Bool.and_eq_true] at hu hv
    exact htrans u a v hu.2 hv.1
  have hfab : [a, b].filter p = [a, b] := by
    simp [List.filter, hpa, hpb]
  have hsub : [a, b].Sublist (l.filter p) := by
    have := hab.filter p
    rwa [hfab] at this
  rw [← stableSort_filter le p htrans htotal hmut l] at hsub
  exact hsub.trans (List.filter_sublist _)

theorem lexLe_refl : ∀ as : List Char, lexLe as as = true := by
  intro as
  induction as with
  | nil => rfl
  | cons a t ih => simp [lexLe, lt_irrefl, ih]

theorem lexLe_total : ∀ as bs : List Char, lexLe as bs = true ∨ lexLe bs as = true := by
  intro as
  induction as with
  | nil => intro bs; exact Or.inl rfl
  | cons a t ih =>
    intro bs
    cases bs with
    | nil => exact Or.inr rfl
    | cons b bs' =>
      rcases lt_trichotomy a b with h | h | h
      · exact Or.inl (by simp [lexLe, h])
      · subst h
        rcases ih bs' with h' | h'
        · exact Or.inl (by simp [lexLe, lt_irrefl, h'])
        · exact Or.inr (by simp [lexLe, lt_irrefl, h'])
      · exact Or.inr (by simp [lexLe, h])

theorem lexLe_trans :
    ∀ as bs cs : List Char, lexLe as bs = true → lexLe bs cs = true → lexLe as cs = true := by
  intro as
  induction as with
  | nil => intro bs cs _ _; rfl
  | cons a t ih =>
    intro bs cs h1 h2
    cases bs with
    | nil => simp [lexLe] at h1
    | cons b bs' =>
      cases cs with
      | nil => simp [lexLe] at h2
      | cons c cs' =>
        simp only [lexLe] at h1 h2 ⊢
        by_cases hab : a < b
        · by_cases hbc : b < c
          · rw [if_pos (lt_trans hab hbc)]
          · by_cases hcb : c < b
            · rw [if_neg hbc, if_pos hcb] at h2
              exact absurd h2 (by simp)
            · have hbceq : b = c := le_antisymm (le_of_not_lt hcb) (le_of_not_lt hbc)
              rw [if_pos (hbceq ▸ hab)]
        · by_cases hba : b < a
          · rw [if_neg hab, if_pos hba] at h1
            exact absurd h1 (by simp)
          · have habeq : a = b := le_antisymm (le_of_not_lt hba) (le_of_not_lt hab)
            subst habeq
            rw [if_neg hab, if_neg hba] at h1
            by_cases hac : a < c
            · rw [if_pos hac]
            · by_cases hca : c < a
              · rw [if_neg hac, if_pos hca] at h2
                exact absurd h2 (by simp)
              · rw [if_neg hac, if_neg hca] at h2 ⊢
                exact ih bs' cs' h1 h2

theorem keyLeB_trans (a b c : String) :
    keyLeB a b = true → keyLeB b c = true → keyLeB a c = true :=
  lexLe_trans _ _ _

theorem keyLeB_total (a b : String) : keyLeB a b = true ∨ keyLeB b a = true :=
  lexLe_total _ _

theorem titleLeB_trans (a b c : AgendaEntry) :
    titleLeB a b = true → titleLeB b c = true → titleLeB a c = true :=
  lexLe_trans _ _ _

theorem titleLeB_total (a b : AgendaEntry) : titleLeB a b = true ∨ titleLeB b a = true :=
  lexLe_total _ _

theorem mem_bucketKeys_aux :
    ∀ (l : List AgendaEntry) (acc : List String) (k : String),
      (k ∈ l.foldl (fun acc e => if keyOf e ∈ acc then acc else acc ++ [keyOf e]) acc) ↔
        (k ∈ acc ∨ ∃ e ∈ l, keyOf e = k) := by
  intro l
  induction l with
  | nil => intro acc k; simp
  | cons e t ih =>
    intro acc k
    simp only [List.foldl_cons]
    rw [ih]
    by_cases h : keyOf e ∈ acc
    · rw [if_pos h]
      constructor
      · rintro (hk | ⟨e', he', rfl⟩)
        · exact Or.inl hk
        · exact Or.inr ⟨e', List.mem_cons_of_mem _ he', rfl⟩
      · rintro (hk | ⟨e', he', rfl⟩)
        · exact Or.inl hk
        · rcases List.mem_cons.mp he' with rfl | he''
          · exact Or.inl h
          · exact Or.inr ⟨e', he'', rfl⟩
    · rw [if_neg h]
      constructor
      · rintro (hk | ⟨e', he', rfl⟩)
        · rcases List.mem_append.mp hk with hk' | hk'
          · exact Or.inl hk'
          · exact Or.inr ⟨e, List.mem_cons_self _ _, (List.mem_singleton.mp hk').symm⟩
        · exact Or.inr ⟨e', List.mem_cons_of_mem _ he', rfl⟩
      · rintro (hk | ⟨e', he', rfl⟩)
        · exact Or.inl (List.mem_append.mpr (Or.inl hk))
        · rcases List.mem_cons.mp he' with rfl | he''
          · exact Or.inl (List.mem_append.mpr (Or.inr (List.mem_singleton.mpr rfl)))
          · exact Or.inr ⟨e', he'', rfl⟩

theorem mem_bucketKeys (entries : List AgendaEntry) (k : String) :
    k ∈ bucketKeys entries ↔ ∃ e ∈ entries, keyOf e = k := by
  have := mem_bucketKeys_aux entries [] k
  simpa [bucketKeys] using this

theorem bucketKeys_nodup_aux :
    ∀ (l : List AgendaEntry) (acc : List String), acc.Nodup →
      (l.foldl (fun acc e => if keyOf e ∈ acc then acc else acc ++ [keyOf e]) acc).Nodup := by
  intro l
  induction l with
  | nil => intro acc h; simpa using h
  | cons e t ih =>
    intro acc h
    simp only [List.foldl_cons]
    by_cases he : keyOf e ∈ acc
    · rw [if_pos he]; exact ih acc h
    · rw [if_neg he]
      exact ih _ (by simp [List.nodup_append, h, he])

theorem bucketKeys_nodup (entries : List AgendaEntry) : (bucketKeys entries).Nodup :=
  bucketKeys_nodup_aux entries [] List.Pairwise.nil

theorem mem_sortKeys (ks : List String) (k : String) : k ∈ sortKeys ks ↔ k ∈ ks :=
  mem_stableSort keyLeB k ks

theorem sortKeys_nodup (ks : List String) (h : ks.Nodup) : (sortKeys ks).Nodup :=
  h.perm (stableSort_perm keyLeB ks).symm

theorem mem_groupOf (entries : List AgendaEntry) (k : String) (e : AgendaEntry) :
    e ∈ groupOf entries k ↔ e ∈ entries ∧ keyOf e = k := by
  simp [groupOf, List.mem_filter]

theorem mem_sectionGroup (entries : List AgendaEntry) (k : String) (e : AgendaEntry) :
    e ∈ sectionGroup entries k ↔ e ∈ entries ∧ keyOf e = k := by
  rw [sectionGroup, mem_stableSort, mem_groupOf]

theorem count_groupOf (a : AgendaEntry) (entries : List AgendaEntry) (k : String) :
    (groupOf entries k).count a = if keyOf a = k then entries.count a else 0 := by
  by_cases h : keyOf a = k
  · rw [if_pos h]
    exact List.count_filter (by simp [h])
  · rw [if_neg h]
    refine List.count_eq_zero_of_not_mem ?_
    intro hmem
    exact h ((mem_groupOf entries k a).mp hmem).2

theorem sum_map_ite_eq (c : Nat) (k0 : String) :
    ∀ ks : List String, ks.Nodup →
      ((ks.map fun k => if k0 = k then c else 0).sum) = if k0 ∈ ks then c else 0 := by
  intro ks
  induction ks with
  | nil => simp
  | cons k t ih =>
    intro hnd
    rcases List.nodup_cons.mp hnd with ⟨hk, ht⟩
    simp only [List.map_cons, List.sum_cons, ih ht]
    by_cases h : k0 = k
    · subst h
      rw [if_pos rfl, if_neg hk, if_pos (List.mem_cons_self _ _)]
      omega
    · have hmem : (k0 ∈ k :: t) ↔ k0 ∈ t := by simp [List.mem_cons, h]
      rw [if_neg h, if_congr hmem rfl rfl]
      simp

theorem flatten_map_perm {β : Type} {f g : β → List AgendaEntry} :
    ∀ ks : List β, (∀ k ∈ ks, (f k).Perm (g k)) →
      ((ks.map f).flatten).Perm ((ks.map g).flatten) := by
  intro ks
  induction ks with
  | nil => intro _; simp
  | cons k t ih =>
    intro h
    simp only [List.map_cons, List.flatten_cons]
    exact (h k (List.mem_cons_self k t)).append
      (ih fun k' hk' => h k' (List.mem_cons_of_mem _ hk'))

theorem flatten_groupOf_perm (entries : List AgendaEntry) :
    (((sortKeys (bucketKeys entries)).map fun k => groupOf entries k).flatten).Perm entries := by
  rw [List.perm_iff_count]
  intro a
  rw [List.count_flatten, List.map_map]
  have hmap : ((sortKeys (bucketKeys entries)).map (List.count a ∘ fun k => groupOf entries k)) =
      (sortKeys (bucketKeys entries)).map fun k => if keyOf a = k then entries.count a else 0 :=
    List.map_congr_left (fun k _ => count_groupOf a entries k)
  rw [hmap, sum_map_ite_eq _ _ _ (sortKeys_nodup _ (bucketKeys_nodup entries))]
  by_cases ha : a ∈ entries
  · rw [if_pos ((mem_sortKeys _ _).mpr ((mem_bucketKeys entries (keyOf a)).mpr ⟨a, ha, rfl⟩))]
  · rw [List.count_eq_zero_of_not_mem ha]
    split <;> rfl

theorem flatten_sectionGroups_perm (entries : List AgendaEntry) :
    (((sortKeys (bucketKeys entries)).map fun k => sectionGroup entries k).flatten).Perm entries :=
  (flatten_map_perm _ (fun k _ => stableSort_perm titleLeB (groupOf entries k))).trans
    (flatten_groupOf_perm entries)

theorem flatten_chunks :
    ∀ (n : Nat) (l : List AgendaEntry), l.length ≤ ITEMS_PER_PAGE * n →
      (((List.range n).map fun i =>
          (l.drop (i * ITEMS_PER_PAGE)).take ITEMS_PER_PAGE).flatten) = l := by
  intro n
  induction n with
  | zero =>
    intro l h
    simp only [ITEMS_PER_PAGE] at h
    have : l = [] := List.length_eq_zero.mp (by omega)
    simp [this]
  | succ n ih =>
    intro l h
    rw [List.range_succ_eq_map]
    simp only [List.map_cons, List.map_map, List.flatten_cons]
    have hcomp : ∀ i ∈ List.range n,
        ((fun i => (l.drop (i * ITEMS_PER_PAGE)).take ITEMS_PER_PAGE) ∘ Nat.succ) i =
          (fun i => ((l.drop ITEMS_PER_PAGE).drop (i * ITEMS_PER_PAGE)).take ITEMS_PER_PAGE) i := by
      intro i _
      simp only [Function.comp]
      rw [List.drop_drop, Nat.succ_mul, Nat.add_comm]
    rw [List.map_congr_left hcomp,
      ih (l.drop ITEMS_PER_PAGE) (by rw [List.length_drop]; simp only [ITEMS_PER_PAGE] at h ⊢; omega),
      Nat.zero_mul, List.drop_zero]
    exact List.take_append_drop _ l

theorem isLatinLetter_eq_true {s : String} (h : isLatinLetter s = true) :
    ∃ c : Char, 'A' ≤ c ∧ c ≤ 'Z' ∧ s = ⟨[c]⟩ := by
  obtain ⟨d⟩ := s
  cases d with
  | nil => simp [isLatinLetter] at h
  | cons c t =>
    cases t with
    | nil =>
      simp only [isLatinLetter, Bool.and_eq_true, decide_eq_true_eq] at h
      exact ⟨c, h.1, h.2, rfl⟩
    | cons c2 t2 => simp [isLatinLetter] at h

/-- C1: letter-key derivation is total and never throws: for any title
(including a null or undefined one) the key is either the catch-all `"#"` or
a single Latin capital `A`–`Z`; an empty, whitespace-only or absent title
yields the catch-all, `"éclair"` yields the catch-all, `"Zebra"` yields `"Z"`
and `"apple"` is case-folded to `"A"`. -/
theorem letterKey_total_catchall :
    (∀ title : Option String,
        letterKey title = "#" ∨ ∃ c : Char, 'A' ≤ c ∧ c ≤ 'Z' ∧ letterKey title = ⟨[c]⟩)
    ∧ (∀ t : String, jsTrim t = "" → letterKey (some t) = "#")
    ∧ letterKey none = "#"
    ∧ letterKey (some "") = "#"
    ∧ letterKey (some "   ") = "#"
    ∧ letterKey (some "éclair") = "#"
    ∧ letterKey (some "Zebra") = "Z"
    ∧ letterKey (some "apple") = "A" := by
  refine ⟨?_, ?_, by decide, by decide, by decide, by decide, by decide, by decide⟩
  · intro title
    simp only [letterKey]
    split
    · next h =>
      right
      rcases isLatinLetter_eq_true h with ⟨c, h1, h2, hs⟩
      exact ⟨c, h1, h2, hs⟩
    · next h => exact Or.inl rfl
  · intro t h
    simp only [letterKey, h]
    decide

/-- Witness for `letterKey_total_catchall` at the whitespace-only title. -/
theorem letterKey_total_catchall_witness : letterKey (some "  ") = "#" :=
  letterKey_total_catchall.2.1 "  " (by decide)

/-- C7: date formatting is total and never throws: an absent or null value
formats to the empty string, an unparseable value formats to the empty
string (never an Invalid-Date-style string), and a valid value formats to
the locale rendering, which is non-empty whenever the platform renderer is. -/
theorem formatDate_total_spec :
    ∀ env : DateEnv,
      formatDate env none = ""
      ∧ formatDate env (some "") = ""
      ∧ (∀ s, env.parse s = none → formatDate env (some s) = "")
      ∧ (∀ s t, s ≠ "" → env.parse s = some t → formatDate env (some s) = env.fmt t)
      ∧ ((∀ t, env.fmt t ≠ "") → ∀ s t, s ≠ "" → env.parse s = some t →
          formatDate env (some s) ≠ "") := by
  intro env
  refine ⟨rfl, rfl, ?_, ?_, ?_⟩
  · intro s hp
    by_cases hs : s = ""
    · subst hs; rfl
    · simp [formatDate, hs, hp]
  · intro s t hs hp
    simp [formatDate, hs, hp]
  · intro hf s t hs hp
    have : formatDate env (some s) = env.fmt t := by simp [formatDate, hs, hp]
    rw [this]
    exact hf t

/-- Witness for `formatDate_total_spec`: a parseable value renders non-empty
in an environment whose renderer is non-empty, and an unparseable value
renders empty. -/
theorem formatDate_total_spec_witness :
    formatDate demoDates (some "2024-01-01") = "Jan 1, 2024"
    ∧ formatDate noDates (some "not-a-date") = "" :=
  ⟨(formatDate_total_spec demoDates).2.2.2.1 "2024-01-01" 0 (by decide) rfl,
   (formatDate_total_spec noDates).2.2.1 "not-a-date" rfl⟩

/-- C4: page state is keyed by letter and letters are independent: changing
the page of letter `X` leaves every other letter's stored page unchanged and
stores the requested page under `X`; a successful create sets the destination
letter's page to 1 and leaves every other letter's stored page unchanged. -/
theorem pageState_frame :
    (∀ (prev : String → Option Nat) (X Y : String) (page : Nat), X ≠ Y →
        handlePageChange prev X page Y = prev Y)
    ∧ (∀ (prev : String → Option Nat) (X : String) (page : Nat),
        handlePageChange prev X page X = some page)
    ∧ (∀ (st : ClientState) (saved : AgendaEntry) (Y : String), Y ≠ keyOf saved →
        (clientAfterCreate st saved).pageByLetter Y = st.pageByLetter Y)
    ∧ (∀ (st : ClientState) (saved : AgendaEntry),
        (clientAfterCreate st saved).pageByLetter (keyOf saved) = some 1)
    ∧ (∀ (st : ClientState) (saved : AgendaEntry),
        (clientAfterCreate st saved).entries = saved :: st.entries) := by
  refine ⟨?_, ?_, ?_, ?_, ?_⟩
  · intro prev X Y page h
    simp [handlePageChange, Ne.symm h]
  · intro prev X page
    simp [handlePageChange]
  · intro st saved Y h
    simp [clientAfterCreate, h]
  · intro st saved
    simp [clientAfterCreate]
  · intro st saved
    rfl

/-- Witness for `pageState_frame`: changing letter `A`'s page leaves `B`
alone, and creating an entry filed under `A` leaves `B`'s stored page
alone. -/
theorem pageState_frame_witness :
    handlePageChange (fun _ => some 7) "A" 2 "B" = some 7
    ∧ (clientAfterCreate ⟨[], fun _ => some 7⟩ entryA).pageByLetter "B" = some 7 :=
  ⟨pageState_frame.1 (fun _ => some 7) "A" "B" 2 (by decide),
   pageState_frame.2.2.1 ⟨[], fun _ => some 7⟩ entryA "B" (by decide)⟩

theorem groupedSections_map_comp {β : Type} (entries : List AgendaEntry)
    (pages : String → Option Nat) (f : String → β) :
    (groupedSections entries pages).map (fun s => f s.letter) =
      (sortKeys (bucketKeys entries)).map f := by
  rw [groupedSections, List.map_map]
  exact List.map_congr_left (fun k _ => rfl)

theorem searchSections_map_comp {β : Type} (env : DateEnv) (entries : List AgendaEntry)
    (query : String) (f : String → β) :
    (searchSections env entries query).map (fun s => f s.letter) =
      (sortKeys (bucketKeys (searchFiltered env entries query))).map f := by
  rw [searchSections, List.map_map]
  exact List.map_congr_left (fun k _ => rfl)

theorem groupedSections_letters (entries : List AgendaEntry) (pages : String → Option Nat) :
    (groupedSections entries pages).map (fun s => s.letter) =
      sortKeys (bucketKeys entries) := by
  rw [groupedSections_map_comp entries pages (fun k => k)]
  exact List.map_id _

theorem searchSections_letters (env : DateEnv) (entries : List AgendaEntry) (query : String) :
    (searchSections env entries query).map (fun s => s.letter) =
      sortKeys (bucketKeys (searchFiltered env entries query)) := by
  rw [searchSections_map_comp env entries query (fun k => k)]
  exact List.map_id _

/-- C3: for every section, `totalPages = max 1 (ceil(count / 5))` and the
current page is clamped into `[1, totalPages]` for every letter key and every
prior page map; the reconciliation effect obeys the same bounds; 12 entries
give 3 pages, a stored page 0 clamps to 1, and a stored page 3 clamps to 1
when the count shrinks to 4. -/
theorem pagination_bounds :
    (∀ (entries : List AgendaEntry) (pages : String → Option Nat),
        ∀ s ∈ groupedSections entries pages,
          s.totalPages = max 1 (((sectionGroup entries s.letter).length + 4) / 5)
          ∧ 1 ≤ s.currentPage ∧ s.currentPage ≤ s.totalPages)
    ∧ (∀ (entries : List AgendaEntry) (prev : String → Option Nat) (k : String) (p : Nat),
        reconcilePages entries prev k = some p →
          1 ≤ p ∧ p ≤ max 1 (((groupOf entries k).length + 4) / 5))
    ∧ (groupedSections (List.replicate 12 entryA) (fun _ => some 3)).map
        (fun s => (s.totalPages, s.currentPage)) = [(3, 3)]
    ∧ (groupedSections (List.replicate 12 entryA) (fun _ => some 0)).map
        (fun s => s.currentPage) = [1]
    ∧ (groupedSections (List.replicate 4 entryA) (fun _ => some 3)).map
        (fun s => (s.totalPages, s.currentPage)) = [(1, 1)] := by
  refine ⟨?_, ?_, by decide, by decide, by decide⟩
  · intro entries pages s hs
    rcases List.mem_map.mp hs with ⟨k, _, rfl⟩
    refine ⟨rfl, ?_, ?_⟩
    · simp only [ITEMS_PER_PAGE]
      omega
    · simp only [ITEMS_PER_PAGE]
      omega
  · intro entries prev k p h
    simp only [reconcilePages] at h
    split at h
    · exact absurd h (by simp)
    · rw [Option.some_inj] at h
      simp only [ITEMS_PER_PAGE] at h
      omega

/-- Witness for `pagination_bounds`: the reconciliation of letter `A` with 12
entries and stored page 3 stays within bounds. -/
theorem pagination_bounds_witness :
    1 ≤ 3 ∧ 3 ≤ max 1 (((groupOf (List.replicate 12 entryA) "A").length + 4) / 5) :=
  pagination_bounds.2.1 (List.replicate 12 entryA) (fun _ => some 3) "A" 3 (by decide)

/-- C2: the engine's sections are ordered ascending by the case-insensitive
comparator on their letter keys, every visible page is sorted by title under
the same comparator, entries with comparator-equal titles keep their relative
input order in the sorted section group (stability), and re-running the
engine on the same input yields the same output. -/
theorem engine_ordering_stable :
    ∀ (entries : List AgendaEntry) (pages : String → Option Nat),
      ((groupedSections entries pages).map (fun s => s.letter)).Pairwise
        (fun a b => keyLeB a b = true)
      ∧ (∀ s ∈ groupedSections entries pages,
          s.visible.Pairwise (fun a b => titleLeB a b = true))
      ∧ (∀ (k : String) (a b : AgendaEntry), [a, b].Sublist entries →
          keyOf a = k → keyOf b = k → jsToLower a.title = jsToLower b.title →
          [a, b].Sublist (sectionGroup entries k))
      ∧ groupedSections entries pages = groupedSections entries pages := by
  intro entries pages
  refine ⟨?_, ?_, ?_, rfl⟩
  · rw [groupedSections_letters]
    exact stableSort_pairwise keyLeB keyLeB_trans keyLeB_total _
  · intro s hs
    rcases List.mem_map.mp hs with ⟨k, _, rfl⟩
    exact List.Pairwise.sublist ((List.take_sublist _ _).trans (List.drop_sublist _ _))
      (stableSort_pairwise titleLeB titleLeB_trans titleLeB_total (groupOf entries k))
  · intro k a b hsub ha hb htitle
    have hab : titleLeB a b = true := by
      unfold titleLeB
      rw [htitle]
      exact lexLe_refl _
    have hba : titleLeB b a = true := by
      unfold titleLeB
      rw [htitle]
      exact lexLe_refl _
    have hfil : [a, b].Sublist (groupOf entries k) := by
      have heq : [a, b].filter (fun e => keyOf e == k) = [a, b] := by
        simp [ha, hb]
      have h2 := hsub.filter (fun e => keyOf e == k)
      rw [heq] at h2
      exact h2
    exact stableSort_stable_pair titleLeB titleLeB_trans titleLeB_total hfil hab hba

/-- Witness for `engine_ordering_stable`: two distinct entries with the equal
title `Alpha` keep their input order in the sorted group of section `A`. -/
theorem engine_ordering_stable_witness :
    [eAlphaX, eAlphaY].Sublist (sectionGroup [eAlphaX, eAlphaY] "A") :=
  (engine_ordering_stable [eAlphaX, eAlphaY] (fun _ => none)).2.2.1 "A" eAlphaX eAlphaY
    (List.Sublist.refl _) (by decide) (by decide) (by decide)

/-- C10: the grouping is a partition of the input: an entry belongs to the
group of exactly the section whose letter is its key, section letters are
pairwise distinct, every entry's key has a section, concatenating the
sections' full sorted groups is a permutation of the input, every produced
section is non-empty, and each section's group is exactly the concatenation
of its pages. -/
theorem grouping_partition :
    ∀ (entries : List AgendaEntry) (pages : String → Option Nat),
      ((groupedSections entries pages).map (fun s => s.letter)).Nodup
      ∧ (∀ (s : AgendaSection), s ∈ groupedSections entries pages → ∀ e : AgendaEntry,
          e ∈ sectionGroup entries s.letter ↔ e ∈ entries ∧ keyOf e = s.letter)
      ∧ (∀ e ∈ entries, keyOf e ∈ (groupedSections entries pages).map (fun s => s.letter))
      ∧ (((groupedSections entries pages).map
            (fun s => sectionGroup entries s.letter)).flatten).Perm entries
      ∧ (∀ s ∈ groupedSections entries pages, sectionGroup entries s.letter ≠ [])
      ∧ (∀ s ∈ groupedSections entries pages,
          (((List.range s.totalPages).map fun i =>
              ((sectionGroup entries s.letter).drop (i * ITEMS_PER_PAGE)).take
                ITEMS_PER_PAGE).flatten) = sectionGroup entries s.letter) := by
  intro entries pages
  refine ⟨?_, ?_, ?_, ?_, ?_, ?_⟩
  · rw [groupedSections_letters]
    exact sortKeys_nodup _ (bucketKeys_nodup entries)
  · intro s _ e
    exact mem_sectionGroup entries s.letter e
  · intro e he
    rw [groupedSections_letters]
    exact (mem_sortKeys _ _).mpr ((mem_bucketKeys entries (keyOf e)).mpr ⟨e, he, rfl⟩)
  · rw [groupedSections_map_comp entries pages (fun k => sectionGroup entries k)]
    exact flatten_sectionGroups_perm entries
  · intro s hs
    rcases List.mem_map.mp hs with ⟨k, hk, rfl⟩
    rcases (mem_bucketKeys entries k).mp ((mem_sortKeys _ _).mp hk) with ⟨e, he, hke⟩
    intro hnil
    have : e ∈ sectionGroup entries k := (mem_sectionGroup entries k e).mpr ⟨he, hke⟩
    rw [hnil] at this
    exact List.not_mem_nil e this
  · intro s hs
    rcases List.mem_map.mp hs with ⟨k, _, rfl⟩
    refine flatten_chunks _ _ ?_
    simp only [ITEMS_PER_PAGE]
    omega

/-- Witness for `grouping_partition`: the key of `entryA` appears among the
section letters of the singleton library. -/
theorem grouping_partition_witness :
    keyOf entryA ∈ (groupedSections [entryA] (fun _ => none)).map (fun s => s.letter) :=
  (grouping_partition [entryA] (fun _ => none)).2.2.1 entryA (by decide)

/-- C5: after normalizing the query (trim then lowercase), an empty
normalized query keeps the full entry list; otherwise an entry is kept iff
its lowercased space-joined haystack (title, note, user tag, formatted date,
formatted creation timestamp) contains the normalized query; a query whose
note mentions London matches case-insensitively, and a query matching
nothing yields zero sections rather than an error. -/
theorem search_filter_spec :
    (∀ (env : DateEnv) (entries : List AgendaEntry) (query : String),
        (jsToLower (jsTrim query) = "" → searchFiltered env entries query = entries)
        ∧ (jsToLower (jsTrim query) ≠ "" → ∀ e : AgendaEntry,
            e ∈ searchFiltered env entries query ↔
              e ∈ entries ∧ jsIncludes (entryHaystack env e) (jsToLower (jsTrim query)) = true)
        ∧ (searchFiltered env entries query = [] → searchSections env entries query = []))
    ∧ searchFiltered noDates [eLondon] "London " = [eLondon]
    ∧ searchFiltered noDates [eLondon] "castle" = []
    ∧ searchSections noDates [eLondon] "castle" = [] := by
  refine ⟨?_, by decide, by decide, by decide⟩
  intro env entries query
  refine ⟨?_, ?_, ?_⟩
  · intro h
    simp [searchFiltered, h]
  · intro h e
    simp [searchFiltered, h, List.mem_filter]
  · intro h
    simp only [searchSections]
    rw [h]
    rfl

/-- Witness for `search_filter_spec`: the empty query keeps every entry. -/
theorem search_filter_spec_witness :
    searchFiltered noDates [eLondon] "" = [eLondon] :=
  (search_filter_spec.1 noDates [eLondon] "").1 (by decide)

/-- C6: in search mode pagination is not applied: every section carries all
its matching entries on one synthetic page (`totalPages = 1`,
`currentPage = 1`), the section letters equal those the non-search engine
produces on the filtered entries (for every page map), and with the empty
query the search sections are exactly the non-search sections with
pagination removed. -/
theorem search_mode_refines_engine :
    ∀ (env : DateEnv) (entries : List AgendaEntry) (query : String)
      (pages : String → Option Nat),
      ((searchSections env entries query).map (fun s => s.letter)
          = (groupedSections (searchFiltered env entries query) pages).map (fun s => s.letter))
      ∧ (∀ s ∈ searchSections env entries query,
          s.totalPages = 1 ∧ s.currentPage = 1
          ∧ s.visible = sectionGroup (searchFiltered env entries query) s.letter)
      ∧ searchFiltered env entries "" = entries
      ∧ ((searchSections env entries "").map (fun s => s.letter)
          = (groupedSections entries pages).map (fun s => s.letter))
      ∧ (∀ s ∈ searchSections env entries "", s.visible = sectionGroup entries s.letter) := by
  intro env entries query pages
  have hempty : searchFiltered env entries "" = entries := rfl
  refine ⟨?_, ?_, hempty, ?_, ?_⟩
  · rw [searchSections_letters, groupedSections_letters]
  · intro s hs
    rcases List.mem_map.mp hs with ⟨k, _, rfl⟩
    exact ⟨rfl, rfl, rfl⟩
  · rw [searchSections_letters, groupedSections_letters, hempty]
  · intro s hs
    rcases List.mem_map.mp hs with ⟨k, _, rfl⟩
    show sectionGroup (searchFiltered env entries "") k = sectionGroup entries k
    rw [hempty]

/-- Witness for `search_mode_refines_engine`: the single search section of
the one-entry library carries the whole group on one synthetic page. -/
theorem search_mode_refines_engine_witness :
    (AgendaSection.mk "T" [eLondon] 1 1).totalPages = 1
    ∧ (AgendaSection.mk "T" [eLondon] 1 1).currentPage = 1
    ∧ (AgendaSection.mk "T" [eLondon] 1 1).visible
        = sectionGroup (searchFiltered noDates [eLondon] "") "T" :=
  (search_mode_refines_engine noDates [eLondon] "" (fun _ => none)).2.1
    (AgendaSection.mk "T" [eLondon] 1 1) (by decide)

/-- C8: a create request with a missing, non-string or blank title is
rejected with the validation failure and stores nothing; any other create
request succeeds and stores exactly one new entry carrying the
server-assigned identifier and creation timestamp, the trimmed non-empty
title, and the supplied trimmed user tag when it is a non-blank string, else
the configured default user tag. -/
theorem create_validation_spec :
    ∀ (defaultUserId freshId now : String) (body : CreateBody) (store : List StoredEntry),
      ((body.title = JsField.absent ∨ body.title = JsField.nonString ∨
          ∃ t, body.title = JsField.str t ∧ jsTrim t = "") →
        (createEntry defaultUserId freshId now body store).1 = Except.error "Title is required."
        ∧ (createEntry defaultUserId freshId now body store).2 = store)
      ∧ (∀ t, body.title = JsField.str t → jsTrim t ≠ "" →
          ∃ e : StoredEntry,
            (createEntry defaultUserId freshId now body store).1 = Except.ok e
            ∧ (createEntry defaultUserId freshId now body store).2 = store ++ [e]
            ∧ e.id = freshId
            ∧ e.createdAt = now
            ∧ e.title = jsTrim t
            ∧ e.title ≠ ""
            ∧ (∀ u, body.userId = JsField.str u → jsTrim u ≠ "" → e.userId = jsTrim u)
            ∧ ((∀ u, body.userId = JsField.str u → jsTrim u = "") →
                e.userId = defaultUserId)) := by
  intro defaultUserId freshId now body store
  constructor
  · rintro (h | h | ⟨t, h, ht⟩)
    · simp [createEntry, h]
    · simp [createEntry, h]
    · simp [createEntry, h, ht]
  · intro t h ht
    simp only [createEntry, h]
    rw [if_neg ht]
    refine ⟨_, rfl, rfl, rfl, rfl, rfl, ht, ?_, ?_⟩
    · intro u hu hnu
      simp [hu, hnu]
    · intro hall
      cases hbu : body.userId with
      | absent => simp [hbu]
      | nonString => simp [hbu]
      | str u =>
        have : jsTrim u = "" := hall u hbu
        simp [hbu, this]

/-- Witness for `create_validation_spec`: a blank title is rejected and the
store is untouched. -/
theorem create_validation_spec_witness :
    (createEntry "couple" "id1" "t0" blankBody []).1 = Except.error "Title is required."
    ∧ (createEntry "couple" "id1" "t0" blankBody []).2 = [] :=
  (create_validation_spec "couple" "id1" "t0" blankBody []).1
    (Or.inr (Or.inr ⟨"   ", rfl, by decide⟩))

/-- Counterexample to C9 as stated: an update request whose identifier
matches no stored entry (the store is empty) but whose title is blank is
answered with the validation failure, not the distinct not-found failure. -/
theorem update_notfound_counterexample :
    (updateEntry "ghost" { title := JsField.str "   ", note := JsField.absent } []).1
        = UpdateResult.badRequest
    ∧ (([] : List StoredEntry).all (fun e => e.id ≠ "ghost")) = true
    ∧ UpdateResult.badRequest ≠ UpdateResult.notFound := by
  refine ⟨by decide, by decide, by decide⟩

/-- C9 (amended): for every update request with a non-empty identifier and a
title that is a non-blank string, an identifier matching no stored entry
yields the distinct not-found failure, leaves the store unmodified and the
client's list unchanged after the failed request; a matching identifier
rewrites only the matching row's title and note, preserving every row's id,
date, user tag, creation timestamp and done flag, and leaving non-matching
rows entirely unchanged. -/
theorem update_amended_spec :
    ∀ (id : String) (body : UpdateBody) (store : List StoredEntry) (t : String)
      (entries : List AgendaEntry),
      id ≠ "" → body.title = JsField.str t → jsTrim t ≠ "" →
      ((store.all (fun e => e.id ≠ id) = true →
          (updateEntry id body store).1 = UpdateResult.notFound
          ∧ (updateEntry id body store).2 = store
          ∧ clientAfterEditResponse entries none = entries)
      ∧ (store.all (fun e => e.id ≠ id) = false →
          (updateEntry id body store).2 = store.map (fun e =>
            if e.id = id then { e with title := jsTrim t, note := resolveNote body.note } else e)
          ∧ ∀ e ∈ store,
              ∃ e' ∈ (updateEntry id body store).2,
                e'.id = e.id ∧ e'.date = e.date ∧ e'.userId = e.userId
                ∧ e'.createdAt = e.createdAt ∧ e'.done = e.done
                ∧ (e.id ≠ id → e' = e)
                ∧ (e.id = id → e'.title = jsTrim t ∧ e'.note = resolveNote body.note))) := by
  intro id body store t entries hid hb ht
  constructor
  · intro hall
    refine ⟨?_, ?_, rfl⟩
    · simp only [updateEntry, hb]
      rw [if_neg hid, if_neg ht, if_pos hall]
    · simp only [updateEntry, hb]
      rw [if_neg hid, if_neg ht, if_pos hall]
  · intro hall
    have hsnd : (updateEntry id body store).2 = store.map (fun e =>
        if e.id = id then { e with title := jsTrim t, note := resolveNote body.note } else e) := by
      simp only [updateEntry, hb]
      rw [if_neg hid, if_neg ht, if_neg (by rw [hall]; exact Bool.false_ne_true)]
      split <;> rfl
    refine ⟨hsnd, ?_⟩
    intro e he
    refine ⟨if e.id = id then { e with title := jsTrim t, note := resolveNote body.note } else e,
      ?_, ?_, ?_, ?_, ?_, ?_, ?_, ?_⟩
    · rw [hsnd]
      exact List.mem_map_of_mem _ he
    · by_cases hc : e.id = id <;> simp [hc]
    · by_cases hc : e.id = id <;> simp [hc]
    · by_cases hc : e.id = id <;> simp [hc]
    · by_cases hc : e.id = id <;> simp [hc]
    · by_cases hc : e.id = id <;> simp [hc]
    · intro hne
      rw [if_neg hne]
    · intro hceq
      rw [if_pos hceq]
      exact ⟨rfl, rfl⟩

/-- Witness for `update_amended_spec`: updating a missing identifier with a
valid title signals not-found, leaves the empty store empty and the client
list unchanged. -/
theorem update_amended_spec_witness :
    (updateEntry "ghost" { title := JsField.str "New", note := JsField.absent } []).1
        = UpdateResult.notFound
    ∧ (updateEntry "ghost" { title := JsField.str "New", note := JsField.absent } []).2 = []
    ∧ clientAfterEditResponse [eLondon] none = [eLondon] :=
  (update_amended_spec "ghost" { title := JsField.str "New", note := JsField.absent } [] "New"
    [eLondon] (by decide) rfl (by decide)).1 (by decide)
